import Mathlib

/-!
Shallow embedding of the exhibitor-extraction core of src/script.py
(CibusCatalogScraper): the pattern-based record scanner
(parse_raw_text_data), the structured-element and tabular extractors,
the strategy coordinator (extract_exhibitors_from_page) and the
normalizer/deduplicator (clean_exhibitors_data), together with theorems
checking the specification claims against these definitions.
-/

/-- Python whitespace set used by str.strip and by the regex class \s
(restricted to the ASCII range, which covers all inputs considered here). -/
def pyIsSpace (c : Char) : Bool :=
  c == ' ' || c == '\t' || c == '\n' || c == '\r' || c == '\x0b' || c == '\x0c'

/-- Remove trailing characters satisfying pyIsSpace, as Python rstrip does. -/
def rstripChars : List Char → List Char
  | [] => []
  | c :: cs =>
    match rstripChars cs with
    | [] => if pyIsSpace c then [] else [c]
    | r => c :: r

/-- Embedding of Python str.strip(): remove leading and trailing whitespace. -/
def pyStrip (s : String) : String :=
  String.mk (rstripChars (s.toList.dropWhile pyIsSpace))

/-- The exhibitor record shape built by the script. The Python code uses
dicts with string fields name, pavilion, stand, type, description and
(for the raw-text scanner) a products list that always stays empty. -/
structure Exhibitor where
  name : String
  pavilion : String
  stand : String
  type : String
  description : String
  products : List String
deriving DecidableEq

/-- Match a literal character sequence at the head of the input, returning
the remaining characters on success. -/
def dropLit : List Char → List Char → Option (List Char)
  | [], cs => some cs
  | _ :: _, [] => none
  | l :: ls, c :: cs => if c == l then dropLit ls cs else none

/-- ASCII uppercase letter test, the regex class [A-Z]. -/
def isUpperAZ (c : Char) : Bool :=
  'A' ≤ c && c ≤ 'Z'

/-- Anchored match of the regex Padiglione\s+(\d+(?:-\d+)?) at the start of
the input; returns the capture group and the remaining characters. The
quantifiers are effectively possessive here because the characters that can
follow each greedy run are disjoint from the run itself, so maximal munch
coincides with the backtracking semantics of Python re. -/
def matchPavAt (cs : List Char) : Option (List Char × List Char) :=
  match dropLit "Padiglione".toList cs with
  | none => none
  | some cs1 =>
    if (cs1.takeWhile pyIsSpace).isEmpty then none else
    let cs2 := cs1.dropWhile pyIsSpace
    let d1 := cs2.takeWhile Char.isDigit
    if d1.isEmpty then none else
    let cs3 := cs2.dropWhile Char.isDigit
    match cs3 with
    | '-' :: cs4 =>
      let d2 := cs4.takeWhile Char.isDigit
      if d2.isEmpty then some (d1, cs3)
      else some (d1 ++ '-' :: d2, cs4.dropWhile Char.isDigit)
    | _ => some (d1, cs3)

/-- Anchored match of the regex Stand\s+([A-Z]\s+\d+) at the start of the
input; returns the capture group, which includes the inner whitespace run. -/
def matchStandAt (cs : List Char) : Option (List Char) :=
  match dropLit "Stand".toList cs with
  | none => none
  | some cs1 =>
    if (cs1.takeWhile pyIsSpace).isEmpty then none else
    match cs1.dropWhile pyIsSpace with
    | [] => none
    | c :: cs2 =>
      if isUpperAZ c then
        let ws := cs2.takeWhile pyIsSpace
        if ws.isEmpty then none else
        let cs3 := cs2.dropWhile pyIsSpace
        let d := cs3.takeWhile Char.isDigit
        if d.isEmpty then none else some (c :: (ws ++ d))
      else none

/-- Anchored match of the full pavilion marker regex
Padiglione\s+(\d+(?:-\d+)?)\s+-\s+Stand\s+([A-Z]\s+\d+), returning the two
capture groups (pavilion, stand). -/
def matchMarkerAt (cs : List Char) : Option (String × String) :=
  match matchPavAt cs with
  | none => none
  | some (pav, cs1) =>
    if (cs1.takeWhile pyIsSpace).isEmpty then none else
    match cs1.dropWhile pyIsSpace with
    | '-' :: cs2 =>
      if (cs2.takeWhile pyIsSpace).isEmpty then none else
      match matchStandAt (cs2.dropWhile pyIsSpace) with
      | some stand => some (String.mk pav, String.mk stand)
      | none => none
    | _ => none

/-- Leftmost search, as Python re.search: try the anchored matcher at each
start position from left to right and return the first success. -/
def searchFrom {α : Type} (f : List Char → Option α) : List Char → Option α
  | [] => f []
  | c :: cs =>
    match f (c :: cs) with
    | some r => some r
    | none => searchFrom f cs

/-- Embedding of re.search of the pavilion marker regex over a line
(script.py line 135). -/
def markerMatch (line : String) : Option (String × String) :=
  searchFrom matchMarkerAt line.toList

/-- Embedding of re.search of Padiglione\s+(\d+(?:-\d+)?) returning group 1
(script.py lines 237 and 278). -/
def searchPav (s : String) : Option String :=
  (searchFrom matchPavAt s.toList).map (fun pr => String.mk pr.1)

/-- Embedding of re.search of Stand\s+([A-Z]\s+\d+) returning group 1
(script.py lines 241 and 282). -/
def searchStand (s : String) : Option String :=
  (searchFrom matchStandAt s.toList).map String.mk

/-- Substring test, embedding both the Python in operator on strings and
re.search of a literal pattern. -/
def containsSub (pat s : String) : Bool :=
  (searchFrom (fun cs => dropLit pat.toList cs) s.toList).isSome

/-- Embedding of re.search of the literal Padiglione (script.py lines 159
and 167). -/
def containsPadiglione (s : String) : Bool :=
  containsSub "Padiglione" s

/-- The three literal exhibitor type keywords of script.py line 154. -/
def typeKeywords : List String :=
  ["Co-espositore", "Marchio", "Azienda Rappresentata"]

/-- The four values the type field can take: the default plus the three
keywords. -/
def typeValues : List String :=
  ["Espositore", "Co-espositore", "Marchio", "Azienda Rappresentata"]

/-- The handling of a non-marker line inside the loop of
parse_raw_text_data (script.py lines 163 to 176): a keyword line sets the
type of the current record if one is open; any other line not containing
Padiglione fills the name or extends the description; remaining lines are
skipped. -/
def stepLine (line : String) (cur : Option Exhibitor) : Option Exhibitor :=
  if line ∈ typeKeywords then
    cur.map fun r => { r with type := line }
  else if containsPadiglione line then
    cur
  else
    match cur with
    | none => none
    | some r =>
      if r.name = "" then
        some { r with name := line }
      else
        some { r with description := r.description ++ " " ++ line }

/-- The line loop of parse_raw_text_data (script.py lines 131 to 182):
cur is the current exhibitor (none embeds the empty dict) and acc the
sealed output so far. A marker line seals the current record and opens a
new one, then peeks the next line for a type keyword or a candidate name;
every other line is handled by stepLine. The first argument is fuel that
bounds the number of iterations so that the recursion is structural;
every iteration consumes at least one line, so the wrapper scanGo, which
passes the number of lines as fuel, never reaches the fuel-exhausted
branch. -/
def scanGoF : Nat → List String → Option Exhibitor → List Exhibitor → List Exhibitor
  | _, [], cur, acc => acc ++ cur.toList
  | 0, _ :: _, cur, acc => acc ++ cur.toList
  | n + 1, line :: rest, cur, acc =>
    match markerMatch line with
    | some (pav, std) =>
      let acc1 := acc ++ cur.toList
      let r0 : Exhibitor := ⟨"", pav, std, "Espositore", "", []⟩
      match rest with
      | [] => acc1 ++ [r0]
      | next :: rest2 =>
        if next ∈ typeKeywords then
          scanGoF n rest2 (some { r0 with type := next }) acc1
        else if containsPadiglione next then
          scanGoF n (next :: rest2) (some r0) acc1
        else
          scanGoF n rest2 (some { r0 with name := next }) acc1
    | none => scanGoF n rest (stepLine line cur) acc

/-- The line loop of parse_raw_text_data, entered with enough fuel. -/
def scanGo (lines : List String) (cur : Option Exhibitor)
    (acc : List Exhibitor) : List Exhibitor :=
  scanGoF lines.length lines cur acc

/-- Split a character list at every newline, as Python str.split does:
the result always has one more piece than there are newlines, and empty
pieces are kept. -/
def splitNl : List Char → List (List Char)
  | [] => [[]]
  | c :: cs =>
    if c = '\n' then [] :: splitNl cs
    else
      match splitNl cs with
      | [] => [[c]]
      | l :: ls => (c :: l) :: ls

/-- Embedding of the line preprocessing of script.py line 126: split on
newline, strip each line, keep the non-empty ones. -/
def splitLines (text : String) : List String :=
  ((splitNl text.toList).map (fun l => pyStrip (String.mk l))).filter (fun l => l != "")

/-- Embedding of parse_raw_text_data (script.py lines 121 to 184), the
pattern-based record scanner. -/
def parse_raw_text_data (text : String) : List Exhibitor :=
  scanGo (splitLines text) none []

/-- The deduplication key of script.py line 342: the hyphen-joined string
of the raw name, pavilion and stand fields. -/
def dedupKey (r : Exhibitor) : String :=
  r.name ++ "-" ++ r.pavilion ++ "-" ++ r.stand

/-- The in-place field cleanup of script.py lines 348 to 350: strip every
string field of a kept record. -/
def stripRec (r : Exhibitor) : Exhibitor :=
  ⟨pyStrip r.name, pyStrip r.pavilion, pyStrip r.stand,
   pyStrip r.type, pyStrip r.description, r.products⟩

/-- The loop of clean_exhibitors_data (script.py lines 340 to 352): keep a
record when its key has not been seen and its raw name or raw pavilion is
non-empty; kept records are stripped and their raw key recorded. -/
def cleanGo : List Exhibitor → List String → List Exhibitor
  | [], _ => []
  | r :: rest, seen =>
    if dedupKey r ∉ seen ∧ (r.name ≠ "" ∨ r.pavilion ≠ "") then
      stripRec r :: cleanGo rest (dedupKey r :: seen)
    else
      cleanGo rest seen

/-- Embedding of clean_exhibitors_data (script.py lines 335 to 354), the
normalizer/deduplicator. -/
def clean_exhibitors_data (xs : List Exhibitor) : List Exhibitor :=
  cleanGo xs []

/-- A structured page element as seen by extract_exhibitor_from_element:
nameText is the stripped text of the first link, heading or strong
descendant when one exists, and text is the full visible text of the
element (the DOM queries themselves are outside the embedding). -/
structure XElement where
  nameText : Option String
  text : String

/-- Embedding of extract_exhibitor_from_element (script.py lines 217 to
257): name from the first link or heading descendant, pavilion and stand
from regex searches over the element text, type by substring priority;
the element is rejected when both name and pavilion are empty. -/
def extract_exhibitor_from_element (e : XElement) : Option Exhibitor :=
  let name := e.nameText.getD ""
  let pav := (searchPav e.text).getD ""
  let stand := (searchStand e.text).getD ""
  let ty :=
    if containsSub "Co-espositore" e.text then "Co-espositore"
    else if containsSub "Marchio" e.text then "Marchio"
    else if containsSub "Azienda Rappresentata" e.text then "Azienda Rappresentata"
    else "Espositore"
  if name ≠ "" ∨ pav ≠ "" then some ⟨name, pav, stand, ty, "", []⟩ else none

/-- Embedding of extract_exhibitors_from_table (script.py lines 259 to
292): a table is a list of rows, each row the list of its stripped cell
texts. Rows with fewer than two cells are skipped; the first cell is the
name, the second is searched for pavilion and stand; rows with an empty
name are dropped. -/
def extract_exhibitors_from_table (rows : List (List String)) : List Exhibitor :=
  rows.filterMap fun cells =>
    match cells with
    | c0 :: c1 :: _ =>
      let pav := (searchPav c1).getD ""
      let stand := (searchStand c1).getD ""
      if c0 ≠ "" then some ⟨c0, pav, stand, "Espositore", "", []⟩ else none
    | _ => none

/-- A fetched page as seen by extract_exhibitors_from_page: the list of
elements matched by the exhibitor class query, the full page text, and
the list of tables. -/
structure Page where
  elements : List XElement
  text : String
  tables : List (List (List String))

/-- Embedding of extract_exhibitors_from_page (script.py lines 186 to
215), the strategy coordinator: structured elements first, then the raw
text scanner when that produced nothing, then the tables (results
concatenated) when still nothing. -/
def extract_exhibitors_from_page (p : Page) : List Exhibitor :=
  let m1 := p.elements.filterMap extract_exhibitor_from_element
  if m1.isEmpty then
    let m2 := parse_raw_text_data p.text
    if m2.isEmpty then (p.tables.map extract_exhibitors_from_table).flatten
    else m2
  else m1

/-- The five outcomes of the field classifier contract in the spec. -/
inductive FieldKind
  | email
  | website
  | phone
  | address
  | empty
deriving DecidableEq

/-- Modelled from the spec: the Field Classifier of spec section 4.1 is
not present in src/script.py (the repository ships only callers of the
detail-page pipeline in other variants). Rules in order, first match
wins: whitespace-only text is empty; text containing an at sign is email;
text starting with http case-insensitively (the hyperlink-marker
disjunct concerns DOM attributes and is modelled by this prefix test) is
website; text consisting only of digits after removing spaces and plus
signs is phone; anything else is address. -/
def classify (text : String) : FieldKind :=
  if pyStrip text = "" then .empty
  else if text.toList.contains '@' then .email
  else if (text.toList.take 4).map Char.toLower = "http".toList then .website
  else if (text.toList.filter (fun c => !(c == ' ' || c == '+'))).all Char.isDigit then .phone
  else .address

/-- Shape of a pavilion capture: one or more digits, optionally followed
by a hyphen and one or more digits. -/
def pavWFChars (l : List Char) : Bool :=
  let d1 := l.takeWhile Char.isDigit
  let r := l.dropWhile Char.isDigit
  !d1.isEmpty &&
    (r.isEmpty ||
      match r with
      | '-' :: r2 => !r2.isEmpty && r2.all Char.isDigit
      | _ => false)

/-- Shape of a stand capture: one ASCII uppercase letter, one or more
whitespace characters, one or more digits. -/
def standWFChars (l : List Char) : Bool :=
  match l with
  | c :: r =>
    isUpperAZ c &&
      (let ws := r.takeWhile pyIsSpace
       let r2 := r.dropWhile pyIsSpace
       !ws.isEmpty && !r2.isEmpty && r2.all Char.isDigit)
  | [] => false

/-- Pavilion shape predicate on strings. -/
def pavWF (s : String) : Bool := pavWFChars s.toList

/-- Stand shape predicate on strings. -/
def standWF (s : String) : Bool := standWFChars s.toList

/-- The identified test of the normalizer, on the raw fields: name or
pavilion non-empty. -/
def identifiedB (r : Exhibitor) : Bool :=
  r.name != "" || r.pavilion != ""

/-- Specification-side first-occurrence deduplication: keep the head and
drop every later record sharing its key. -/
def firstByKey : List Exhibitor → List Exhibitor
  | [] => []
  | r :: rest => r :: firstByKey (rest.filter fun s => dedupKey s != dedupKey r)
termination_by l => l.length
decreasing_by
  simp_wf
  exact Nat.lt_succ_of_le (List.length_filter_le _ _)

/-- Specification-side description of the normalizer output: keep the
identified records, deduplicate by first occurrence of the key, then
strip the fields of each survivor. -/
def cleanSpec (xs : List Exhibitor) : List Exhibitor :=
  (firstByKey (xs.filter identifiedB)).map stripRec

/-- Well-formedness of a scanner record: the pavilion capture is digits
optionally followed by a hyphen and digits, the stand capture is an
uppercase letter, whitespace and digits, both non-empty, and the type is
one of the four enumerated values. -/
def wfRecord (r : Exhibitor) : Prop :=
  (r.pavilion ≠ "" ∧ pavWF r.pavilion = true)
  ∧ (r.stand ≠ "" ∧ standWF r.stand = true)
  ∧ r.type ∈ typeValues

/-- C1 counterexample: two records whose (name, pavilion, stand) triples
differ in every component nevertheless collide on the hyphen-joined key
string, and the later one is dropped, refuting the claim that records
with different triples are both kept. -/
theorem C1_counterexample :
    (("a-b", "c", "") ≠ (("a", "b-c", "") : String × String × String))
    ∧ clean_exhibitors_data
        [⟨"a-b", "c", "", "Espositore", "", []⟩, ⟨"a", "b-c", "", "Espositore", "", []⟩]
      = [⟨"a-b", "c", "", "Espositore", "", []⟩] := by decide

/-- C2 counterexample: two identified records whose fields differ only by
leading and trailing whitespace get different keys, because the key is
computed before trimming; the later record is kept, not dropped, and the
output even contains two identical trimmed records. -/
theorem C2_counterexample :
    pyStrip " Acme " = "Acme"
    ∧ clean_exhibitors_data
        [⟨"Acme", "1", "A 1", "Espositore", "", []⟩,
         ⟨" Acme ", "1", "A 1", "Espositore", "", []⟩]
      = [⟨"Acme", "1", "A 1", "Espositore", "", []⟩,
         ⟨"Acme", "1", "A 1", "Espositore", "", []⟩] := by decide

/-- C3 counterexample: normalizing is not idempotent, because a first pass
can output two records whose keys become equal only after trimming, and a
second pass then drops one of them. -/
theorem C3_counterexample :
    clean_exhibitors_data (clean_exhibitors_data
        [⟨"Acme", "1", "A 1", "Espositore", "", []⟩,
         ⟨" Acme ", "1", "A 1", "Espositore", "", []⟩])
      ≠ clean_exhibitors_data
        [⟨"Acme", "1", "A 1", "Espositore", "", []⟩,
         ⟨" Acme ", "1", "A 1", "Espositore", "", []⟩] := by decide

/-- C4 counterexample: the identified check runs on the raw fields before
trimming, so a record whose name is whitespace-only survives and appears
in the output with both name and pavilion empty. -/
theorem C4_counterexample :
    clean_exhibitors_data [⟨" ", "", "X", "Espositore", "", []⟩]
      = [⟨"", "", "X", "Espositore", "", []⟩] := by decide

/-- C5 counterexample: a text with a non-empty line and no marker line
yields the empty sequence, so its lines are not folded into any record. -/
theorem C5_counterexample :
    markerMatch "Acme Foods" = none
    ∧ splitLines "Acme Foods" = ["Acme Foods"]
    ∧ parse_raw_text_data "Acme Foods" = [] := by decide

/-- C6 counterexample: a non-empty line that contains the word Padiglione
but does not match the full marker pattern is skipped entirely while a
record is open, instead of being appended to the description. -/
theorem C6_counterexample :
    markerMatch "Padiglione next year" = none
    ∧ containsPadiglione "Padiglione next year" = true
    ∧ parse_raw_text_data "Padiglione 4 - Stand A 12\nAcme\nPadiglione next year"
      = [⟨"Acme", "4", "A 12", "Espositore", "", []⟩] := by decide

/-- C7: scanning the duplicated two-marker text and then normalizing the
result yields exactly one record with pavilion 4, stand A 12, name Acme
Foods and type Marchio. -/
theorem C7_theorem :
    clean_exhibitors_data (parse_raw_text_data
        "Padiglione 4 - Stand A 12\nAcme Foods\nMarchio\nPadiglione 4 - Stand A 12\nAcme Foods\nMarchio")
      = [⟨"Acme Foods", "4", "A 12", "Marchio", "", []⟩] := by decide

/-- C9: the field classifier maps the five reference inputs to email,
website, phone, address and empty respectively, applying its rules in
order with first match wins. -/
theorem C9_theorem :
    classify "mario@example.com" = FieldKind.email
    ∧ classify "http://example.com" = FieldKind.website
    ∧ classify "+39 051 1234567" = FieldKind.phone
    ∧ classify "Via Roma 1, Parma" = FieldKind.address
    ∧ classify "" = FieldKind.empty := by decide

theorem stepLine_none (line : String) : stepLine line none = none := by
  unfold stepLine
  split
  · rfl
  · split
    · rfl
    · rfl

theorem scanGo_no_marker (lines : List String) (acc : List Exhibitor)
    (h : ∀ l ∈ lines, markerMatch l = none) : scanGo lines none acc = acc := by
  induction lines with
  | nil => simp [scanGo, scanGoF]
  | cons line rest ih =>
    have hl : markerMatch line = none := h line (List.mem_cons_self _ _)
    have hr : ∀ l ∈ rest, markerMatch l = none :=
      fun l hm => h l (List.mem_cons_of_mem _ hm)
    simp only [scanGo, List.length_cons, scanGoF, hl, stepLine_none]
    exact ih hr

/-- C5 (amended): for every text in which no line matches the marker
pattern, the scanner returns the empty sequence (hence of length at most
one); no record is ever opened, so non-empty lines are discarded rather
than folded into a record. -/
theorem C5_theorem (text : String)
    (h : ∀ l ∈ splitLines text, markerMatch l = none) :
    parse_raw_text_data text = [] := by
  unfold parse_raw_text_data
  exact scanGo_no_marker _ _ h

theorem C5_witness : parse_raw_text_data "Acme Foods\nVia Roma 1" = [] :=
  C5_theorem _ (by decide)

/-- C6 (amended): while a record is open, a non-marker line that is not a
type keyword and does not contain the substring Padiglione becomes the
name when the name is still empty and is otherwise appended to the
description preceded by a space; a non-marker line that does contain
Padiglione is skipped entirely, leaving the record unchanged. -/
theorem C6_theorem (line : String) (r : Exhibitor) (rest : List String)
    (acc : List Exhibitor)
    (hm : markerMatch line = none)
    (hk : line ∉ typeKeywords) :
    (containsPadiglione line = false →
      scanGo (line :: rest) (some r) acc
        = scanGo rest (some (if r.name = "" then { r with name := line }
            else { r with description := r.description ++ " " ++ line })) acc)
    ∧ (containsPadiglione line = true →
      scanGo (line :: rest) (some r) acc = scanGo rest (some r) acc) := by
  constructor
  · intro hc
    by_cases hn : r.name = "" <;>
      simp [scanGo, scanGoF, stepLine, hm, hk, hc, hn, List.length_cons]
  · intro hc
    simp [scanGo, scanGoF, stepLine, hm, hk, hc, List.length_cons]

theorem C6_witness :
    scanGo ["Fresh pasta"] (some ⟨"Acme", "4", "A 12", "Espositore", "", []⟩) []
      = [⟨"Acme", "4", "A 12", "Espositore", " Fresh pasta", []⟩] := by
  have h := (C6_theorem ("Fresh pasta") ⟨"Acme", "4", "A 12", "Espositore", "", []⟩ [] []
    (by decide) (by decide)).1 (by decide)
  rw [h]
  decide

/-- C2 (amended): the normalizer computes the deduplication key on the raw
untrimmed fields and applies trimming to kept records only after the key
check, so two identified records with distinct raw keys are both kept and
appear trimmed in the output, even when their fields differ only by
leading and trailing whitespace. -/
theorem C2_theorem (r₁ r₂ : Exhibitor)
    (h₁ : r₁.name ≠ "" ∨ r₁.pavilion ≠ "")
    (h₂ : r₂.name ≠ "" ∨ r₂.pavilion ≠ "")
    (hk : dedupKey r₁ ≠ dedupKey r₂) :
    clean_exhibitors_data [r₁, r₂] = [stripRec r₁, stripRec r₂] := by
  have hns : dedupKey r₂ ∉ [dedupKey r₁] := by
    intro hmem
    exact hk ((List.mem_singleton.mp hmem).symm)
  simp only [clean_exhibitors_data, cleanGo]
  rw [if_pos ⟨List.not_mem_nil _, h₁⟩, if_pos ⟨hns, h₂⟩]

theorem C2_witness :
    clean_exhibitors_data
        [⟨"Acme", "1", "A 1", "Espositore", "", []⟩,
         ⟨" Acme ", "1", "A 1", "Espositore", "", []⟩]
      = [stripRec ⟨"Acme", "1", "A 1", "Espositore", "", []⟩,
         stripRec ⟨" Acme ", "1", "A 1", "Espositore", "", []⟩] :=
  C2_theorem _ _ (by decide) (by decide) (by decide)

theorem cleanGo_mem (xs : List Exhibitor) : ∀ (seen : List String) (y : Exhibitor),
    y ∈ cleanGo xs seen →
    ∃ r₀, r₀ ∈ xs ∧ y = stripRec r₀ ∧ (r₀.name ≠ "" ∨ r₀.pavilion ≠ "") := by
  induction xs with
  | nil => intro seen y hy; simp [cleanGo] at hy
  | cons r rest ih =>
    intro seen y hy
    by_cases hcond : dedupKey r ∉ seen ∧ (r.name ≠ "" ∨ r.pavilion ≠ "")
    · rw [cleanGo, if_pos hcond] at hy
      rcases List.mem_cons.mp hy with h1 | h2
      · exact ⟨r, List.mem_cons_self _ _, h1, hcond.2⟩
      · obtain ⟨r₀, hr₀, he, hid⟩ := ih _ y h2
        exact ⟨r₀, List.mem_cons_of_mem _ hr₀, he, hid⟩
    · rw [cleanGo, if_neg hcond] at hy
      obtain ⟨r₀, hr₀, he, hid⟩ := ih _ y hy
      exact ⟨r₀, List.mem_cons_of_mem _ hr₀, he, hid⟩

/-- C4 (amended): every record in the normalizer output is the trimmed
copy of an input record whose raw name or raw pavilion was non-empty; the
identified check runs on the fields before trimming, so a record whose
name is whitespace-only can still reach the output and then carries both
fields empty after trimming. -/
theorem C4_theorem (xs : List Exhibitor) (y : Exhibitor)
    (hy : y ∈ clean_exhibitors_data xs) :
    ∃ r₀, r₀ ∈ xs ∧ y = stripRec r₀ ∧ (r₀.name ≠ "" ∨ r₀.pavilion ≠ "") :=
  cleanGo_mem xs [] y hy

theorem C4_witness :
    ∃ r₀, r₀ ∈ [(⟨"Beta", "2", "B 5", "Espositore", "", []⟩ : Exhibitor)]
      ∧ (⟨"Beta", "2", "B 5", "Espositore", "", []⟩ : Exhibitor) = stripRec r₀
      ∧ (r₀.name ≠ "" ∨ r₀.pavilion ≠ "") :=
  C4_theorem _ _ (by decide)

/-- C8: the strategy coordinator returns the structured-element result
when it is non-empty; otherwise it returns the raw text scan when that is
non-empty; otherwise it returns the concatenation of the table results;
and when all three strategies yield nothing it returns the empty
sequence. -/
theorem C8_theorem (p : Page) :
    (p.elements.filterMap extract_exhibitor_from_element ≠ [] →
      extract_exhibitors_from_page p = p.elements.filterMap extract_exhibitor_from_element)
    ∧ (p.elements.filterMap extract_exhibitor_from_element = [] →
        parse_raw_text_data p.text ≠ [] →
      extract_exhibitors_from_page p = parse_raw_text_data p.text)
    ∧ (p.elements.filterMap extract_exhibitor_from_element = [] →
        parse_raw_text_data p.text = [] →
      extract_exhibitors_from_page p = (p.tables.map extract_exhibitors_from_table).flatten)
    ∧ (p.elements.filterMap extract_exhibitor_from_element = [] →
        parse_raw_text_data p.text = [] →
        (p.tables.map extract_exhibitors_from_table).flatten = [] →
      extract_exhibitors_from_page p = []) := by
  refine ⟨?_, ?_, ?_, ?_⟩
  · intro h1
    simp [extract_exhibitors_from_page, List.isEmpty_iff, h1]
  · intro h1 h2
    simp [extract_exhibitors_from_page, List.isEmpty_iff, h1, h2]
  · intro h1 h2
    simp [extract_exhibitors_from_page, List.isEmpty_iff, h1, h2]
  · intro h1 h2 h3
    simp [extract_exhibitors_from_page, List.isEmpty_iff, h1, h2, h3]

theorem C8_witness : extract_exhibitors_from_page ⟨[], "", []⟩ = [] :=
  (C8_theorem ⟨[], "", []⟩).2.2.2 rfl (by decide) rfl

theorem identifiedB_iff (r : Exhibitor) :
    identifiedB r = true ↔ (r.name ≠ "" ∨ r.pavilion ≠ "") := by
  simp [identifiedB]

theorem key_filter_fuse (k : String) (seen : List String) (x : Exhibitor) :
    ((dedupKey x != k) && decide (dedupKey x ∉ seen))
      = decide (dedupKey x ∉ k :: seen) := by
  by_cases h1 : dedupKey x = k <;> by_cases h2 : dedupKey x ∈ seen <;>
    simp [h1, h2, List.mem_cons]

theorem cleanGo_eq_firstByKey (xs : List Exhibitor) : ∀ (seen : List String),
    cleanGo xs seen
      = (firstByKey ((xs.filter identifiedB).filter
          (fun r => decide (dedupKey r ∉ seen)))).map stripRec := by
  induction xs with
  | nil => intro seen; simp [cleanGo, firstByKey]
  | cons r rest ih =>
    intro seen
    by_cases hid : r.name ≠ "" ∨ r.pavilion ≠ ""
    · have hidB : identifiedB r = true := (identifiedB_iff r).mpr hid
      by_cases hseen : dedupKey r ∈ seen
      · have hcond : ¬(dedupKey r ∉ seen ∧ (r.name ≠ "" ∨ r.pavilion ≠ "")) :=
          fun hc => hc.1 hseen
        rw [cleanGo, if_neg hcond, ih seen]
        have hfc : ((r :: rest).filter identifiedB).filter (fun x => decide (dedupKey x ∉ seen))
            = (rest.filter identifiedB).filter (fun x => decide (dedupKey x ∉ seen)) := by
          simp [List.filter_cons, hidB, hseen]
        rw [hfc]
      · have hcond : dedupKey r ∉ seen ∧ (r.name ≠ "" ∨ r.pavilion ≠ "") := ⟨hseen, hid⟩
        rw [cleanGo, if_pos hcond, ih (dedupKey r :: seen)]
        have hfc : ((r :: rest).filter identifiedB).filter (fun x => decide (dedupKey x ∉ seen))
            = r :: ((rest.filter identifiedB).filter (fun x => decide (dedupKey x ∉ seen))) := by
          simp [List.filter_cons, hidB, hseen]
        rw [hfc]
        rw [firstByKey]
        simp only [List.map_cons]
        have hff : ((rest.filter identifiedB).filter
              (fun x => decide (dedupKey x ∉ seen))).filter
                (fun s => dedupKey s != dedupKey r)
            = (rest.filter identifiedB).filter
                (fun x => decide (dedupKey x ∉ dedupKey r :: seen)) := by
          rw [List.filter_filter]
          exact List.filter_congr (fun x _ => key_filter_fuse (dedupKey r) seen x)
        rw [hff]
    · have hidB : identifiedB r = false := by
        cases hb : identifiedB r
        · rfl
        · exact absurd ((identifiedB_iff r).mp hb) hid
      have hcond : ¬(dedupKey r ∉ seen ∧ (r.name ≠ "" ∨ r.pavilion ≠ "")) :=
        fun hc => hid hc.2
      rw [cleanGo, if_neg hcond, ih seen]
      have hfc : (r :: rest).filter identifiedB = rest.filter identifiedB := by
        simp [List.filter_cons, hidB]
      rw [hfc]

/-- C1 (amended): the normalizer output equals the first-occurrence
deduplication, by the hyphen-joined key string name-pavilion-stand, of the
identified records (raw name or pavilion non-empty), with every survivor
trimmed afterwards. A record is thus dropped iff it is unidentified or an
earlier identified record has the same key string; since the key is plain
string concatenation, records whose triples differ componentwise can
still collide on it and then only the first survives. -/
theorem C1_theorem (xs : List Exhibitor) :
    clean_exhibitors_data xs = cleanSpec xs := by
  have hid : (xs.filter identifiedB).filter
      (fun r => decide (dedupKey r ∉ ([] : List String))) = xs.filter identifiedB := by
    apply List.filter_eq_self.mpr
    intro a _
    simp
  show cleanGo xs [] = cleanSpec xs
  rw [cleanGo_eq_firstByKey xs [], hid]
  rfl

theorem cleanGo_trimmed : ∀ (xs : List Exhibitor) (seen : List String),
    (∀ r ∈ xs, stripRec r = r) →
    (∀ y ∈ cleanGo xs seen,
        stripRec y = y ∧ (y.name ≠ "" ∨ y.pavilion ≠ "") ∧ dedupKey y ∉ seen)
    ∧ ((cleanGo xs seen).map dedupKey).Nodup := by
  intro xs
  induction xs with
  | nil =>
    intro seen h
    constructor
    · intro y hy; simp [cleanGo] at hy
    · simp [cleanGo]
  | cons r rest ih =>
    intro seen h
    have hr : stripRec r = r := h r (List.mem_cons_self _ _)
    have hrest : ∀ x ∈ rest, stripRec x = x := fun x hx => h x (List.mem_cons_of_mem _ hx)
    by_cases hcond : dedupKey r ∉ seen ∧ (r.name ≠ "" ∨ r.pavilion ≠ "")
    · obtain ⟨hmem, hnodup⟩ := ih (dedupKey r :: seen) hrest
      rw [cleanGo, if_pos hcond, hr]
      constructor
      · intro y hy
        rcases List.mem_cons.mp hy with rfl | hy2
        · exact ⟨hr, hcond.2, hcond.1⟩
        · obtain ⟨h1, h2, h3⟩ := hmem y hy2
          exact ⟨h1, h2, fun hs => h3 (List.mem_cons_of_mem _ hs)⟩
      · simp only [List.map_cons, List.nodup_cons]
        constructor
        · intro hmemk
          obtain ⟨y, hy, hk⟩ := List.mem_map.mp hmemk
          exact (hmem y hy).2.2 (by rw [hk]; exact List.mem_cons_self _ _)
        · exact hnodup
    · rw [cleanGo, if_neg hcond]
      exact ih seen hrest

theorem cleanGo_fixed : ∀ (ys : List Exhibitor) (seen : List String),
    (∀ y ∈ ys, stripRec y = y ∧ (y.name ≠ "" ∨ y.pavilion ≠ "") ∧ dedupKey y ∉ seen) →
    ((ys.map dedupKey).Nodup) → cleanGo ys seen = ys := by
  intro ys
  induction ys with
  | nil => intro seen _ _; rfl
  | cons y rest ih =>
    intro seen hall hnodup
    obtain ⟨hs, hid, hns⟩ := hall y (List.mem_cons_self _ _)
    have hnodup2 : (dedupKey y :: rest.map dedupKey).Nodup := by
      simpa only [List.map_cons] using hnodup
    have hnd := List.nodup_cons.mp hnodup2
    rw [cleanGo, if_pos ⟨hns, hid⟩, hs]
    congr 1
    apply ih (dedupKey y :: seen)
    · intro x hx
      obtain ⟨h1, h2, h3⟩ := hall x (List.mem_cons_of_mem _ hx)
      refine ⟨h1, h2, ?_⟩
      intro hmem
      rcases List.mem_cons.mp hmem with heq | hmem2
      · exact hnd.1 (by rw [← heq]; exact List.mem_map_of_mem _ hx)
      · exact h3 hmem2
    · exact hnd.2

/-- C3 (amended): the normalizer is idempotent on input sequences whose
records are already whitespace-trimmed; in general a second application
can drop records whose keys become equal only after the first pass trims
them. -/
theorem C3_theorem (xs : List Exhibitor) (h : ∀ r ∈ xs, stripRec r = r) :
    clean_exhibitors_data (clean_exhibitors_data xs) = clean_exhibitors_data xs := by
  obtain ⟨hmem, hnodup⟩ := cleanGo_trimmed xs [] h
  exact cleanGo_fixed _ [] hmem hnodup

theorem C3_witness :
    clean_exhibitors_data (clean_exhibitors_data
        [⟨"Acme", "1", "A 1", "Espositore", "", []⟩])
      = clean_exhibitors_data [⟨"Acme", "1", "A 1", "Espositore", "", []⟩] :=
  C3_theorem _ (by decide)

theorem takeWhile_of_all {α : Type} (p : α → Bool) (l : List α)
    (h : ∀ a ∈ l, p a = true) : l.takeWhile p = l := by
  induction l with
  | nil => rfl
  | cons c cs ih =>
    rw [List.takeWhile_cons, if_pos (h c (List.mem_cons_self _ _))]
    rw [ih (fun a ha => h a (List.mem_cons_of_mem _ ha))]

theorem dropWhile_of_all {α : Type} (p : α → Bool) (l : List α)
    (h : ∀ a ∈ l, p a = true) : l.dropWhile p = [] := by
  induction l with
  | nil => rfl
  | cons c cs ih =>
    rw [List.dropWhile_cons]
    rw [if_pos (h c (List.mem_cons_self _ _))]
    exact ih (fun a ha => h a (List.mem_cons_of_mem _ ha))

theorem takeWhile_append_stop {α : Type} (p : α → Bool) (l1 : List α) (b : α)
    (l2 : List α) (h1 : ∀ a ∈ l1, p a = true) (hb : p b = false) :
    (l1 ++ b :: l2).takeWhile p = l1 ∧ (l1 ++ b :: l2).dropWhile p = b :: l2 := by
  induction l1 with
  | nil =>
    constructor
    · simp [List.takeWhile_cons, hb]
    · simp [List.dropWhile_cons, hb]
  | cons c cs ih =>
    have hc : p c = true := h1 c (List.mem_cons_self _ _)
    obtain ⟨ht, hd⟩ := ih (fun a ha => h1 a (List.mem_cons_of_mem _ ha))
    constructor
    · simp only [List.cons_append, List.takeWhile_cons, hc, if_true, ht]
    · simp only [List.cons_append, List.dropWhile_cons, hc, if_true, hd]

theorem all_takeWhile {α : Type} (p : α → Bool) (l : List α) :
    ∀ a ∈ l.takeWhile p, p a = true := by
  induction l with
  | nil => intro a ha; simp [List.takeWhile] at ha
  | cons c cs ih =>
    intro a ha
    rw [List.takeWhile_cons] at ha
    by_cases hc : p c = true
    · rw [if_pos hc] at ha
      rcases List.mem_cons.mp ha with rfl | ha2
      · exact hc
      · exact ih a ha2
    · rw [if_neg hc] at ha
      simp at ha

theorem digit_not_space (c : Char) (h : c.isDigit = true) : pyIsSpace c = false := by
  cases hs : pyIsSpace c
  · rfl
  · exfalso
    unfold pyIsSpace at hs
    simp only [Bool.or_eq_true, beq_iff_eq] at hs
    rcases hs with ((((rfl | rfl) | rfl) | rfl) | rfl) | rfl <;> exact absurd h (by decide)

theorem pavWFChars_digits (d : List Char) (hne : ¬d.isEmpty = true)
    (hall : ∀ a ∈ d, Char.isDigit a = true) : pavWFChars d = true := by
  unfold pavWFChars
  rw [takeWhile_of_all _ _ hall, dropWhile_of_all _ _ hall]
  simp [Bool.not_eq_true] at hne ⊢
  simp [hne]

theorem pavWFChars_range (d1 d2 : List Char)
    (h1 : ¬d1.isEmpty = true) (ha1 : ∀ a ∈ d1, Char.isDigit a = true)
    (h2 : ¬d2.isEmpty = true) (ha2 : ∀ a ∈ d2, Char.isDigit a = true) :
    pavWFChars (d1 ++ '-' :: d2) = true := by
  unfold pavWFChars
  obtain ⟨ht, hd⟩ := takeWhile_append_stop Char.isDigit d1 '-' d2 ha1 (by decide)
  rw [ht, hd]
  simp [Bool.not_eq_true] at h1 h2
  simp [h1, h2, List.all_eq_true]
  exact ha2

theorem standWFChars_mk (c : Char) (ws d : List Char)
    (hc : isUpperAZ c = true)
    (hws : ¬ws.isEmpty = true) (hwall : ∀ a ∈ ws, pyIsSpace a = true)
    (hd : ¬d.isEmpty = true) (hdall : ∀ a ∈ d, Char.isDigit a = true) :
    standWFChars (c :: (ws ++ d)) = true := by
  unfold standWFChars
  dsimp only
  cases d with
  | nil => simp at hd
  | cons d0 dtl =>
    have hd0 : Char.isDigit d0 = true := hdall d0 (List.mem_cons_self _ _)
    obtain ⟨ht, hdw⟩ :=
      takeWhile_append_stop pyIsSpace ws d0 dtl hwall (digit_not_space d0 hd0)
    rw [ht, hdw]
    simp [Bool.not_eq_true] at hws
    simp [hc, hws, List.all_eq_true]
    exact ⟨hd0, fun x hx => hdall x (List.mem_cons_of_mem _ hx)⟩

theorem matchPavAt_shape (cs pav rest : List Char)
    (h : matchPavAt cs = some (pav, rest)) : pavWFChars pav = true := by
  unfold matchPavAt at h
  split at h
  · exact absurd h (by simp)
  · split at h
    · exact absurd h (by simp)
    · dsimp only at h
      split at h
      · exact absurd h (by simp)
      · split at h
        · split at h
          · simp only [Option.some.injEq, Prod.mk.injEq] at h
            obtain ⟨h1, h2⟩ := h
            subst h1
            exact pavWFChars_digits _ (by assumption) (all_takeWhile _ _)
          · simp only [Option.some.injEq, Prod.mk.injEq] at h
            obtain ⟨h1, h2⟩ := h
            subst h1
            exact pavWFChars_range _ _ (by assumption) (all_takeWhile _ _)
              (by assumption) (all_takeWhile _ _)
        · simp only [Option.some.injEq, Prod.mk.injEq] at h
          obtain ⟨h1, h2⟩ := h
          subst h1
          exact pavWFChars_digits _ (by assumption) (all_takeWhile _ _)

theorem matchStandAt_shape (cs st : List Char) (h : matchStandAt cs = some st) :
    standWFChars st = true := by
  unfold matchStandAt at h
  split at h
  · exact absurd h (by simp)
  · split at h
    · exact absurd h (by simp)
    · split at h
      · exact absurd h (by simp)
      · split at h
        · dsimp only at h
          split at h
          · exact absurd h (by simp)
          · split at h
            · exact absurd h (by simp)
            · simp only [Option.some.injEq] at h
              subst h
              exact standWFChars_mk _ _ _ (by assumption) (by assumption)
                (all_takeWhile _ _) (by assumption) (all_takeWhile _ _)
        · exact absurd h (by simp)

theorem pavWF_mk_ne (pav : List Char) (h : pavWFChars pav = true) :
    String.mk pav ≠ "" := by
  intro he
  have hne : pav ≠ [] := by
    intro hl
    subst hl
    exact absurd h (by decide)
  exact hne (congrArg String.toList he)

theorem standWF_mk_ne (st : List Char) (h : standWFChars st = true) :
    String.mk st ≠ "" := by
  intro he
  have hne : st ≠ [] := by
    intro hl
    subst hl
    exact absurd h (by decide)
  exact hne (congrArg String.toList he)

theorem matchMarkerAt_shape (cs : List Char) (p s : String)
    (h : matchMarkerAt cs = some (p, s)) :
    (p ≠ "" ∧ pavWF p = true) ∧ (s ≠ "" ∧ standWF s = true) := by
  unfold matchMarkerAt at h
  split at h
  · exact absurd h (by simp)
  · split at h
    · exact absurd h (by simp)
    · split at h
      · split at h
        · exact absurd h (by simp)
        · split at h
          · simp only [Option.some.injEq, Prod.mk.injEq] at h
            obtain ⟨h1, h2⟩ := h
            subst h1
            subst h2
            rename_i pav cs1 hpm c2 hws hdr hws2 stand hst
            have hpav := matchPavAt_shape _ _ _ (by assumption)
            have hstd := matchStandAt_shape _ _ (by assumption)
            exact ⟨⟨pavWF_mk_ne _ hpav, hpav⟩, ⟨standWF_mk_ne _ hstd, hstd⟩⟩
          · exact absurd h (by simp)
      · exact absurd h (by simp)

theorem searchFrom_some {α : Type} (f : List Char → Option α) :
    ∀ (cs : List Char) (r : α), searchFrom f cs = some r → ∃ cs0, f cs0 = some r := by
  intro cs
  induction cs with
  | nil => intro r h; exact ⟨[], h⟩
  | cons c cs2 ih =>
    intro r h
    cases hf : f (c :: cs2) with
    | some r2 =>
      simp only [searchFrom, hf] at h
      exact ⟨c :: cs2, by rw [hf, h]⟩
    | none =>
      simp only [searchFrom, hf] at h
      exact ih r h

theorem markerMatch_shape (line : String) (p s : String)
    (h : markerMatch line = some (p, s)) :
    (p ≠ "" ∧ pavWF p = true) ∧ (s ≠ "" ∧ standWF s = true) := by
  obtain ⟨cs0, hcs0⟩ := searchFrom_some matchMarkerAt line.toList (p, s) h
  exact matchMarkerAt_shape cs0 p s hcs0

theorem typeKeywords_sub (l : String) (h : l ∈ typeKeywords) : l ∈ typeValues := by
  simp only [typeKeywords, List.mem_cons, List.mem_singleton] at h
  rcases h with rfl | rfl | h
  · decide
  · decide
  · simp at h
    subst h
    decide

theorem stepLine_wf (line : String) (cur : Option Exhibitor)
    (hcur : ∀ r, cur = some r → wfRecord r) :
    ∀ r, stepLine line cur = some r → wfRecord r := by
  intro r h
  unfold stepLine at h
  split at h
  · rename_i hkw
    cases cur with
    | none => simp at h
    | some r0 =>
      simp only [Option.map_some'] at h
      have hr := Option.some.inj h
      subst hr
      obtain ⟨hp, hs, _⟩ := hcur r0 rfl
      exact ⟨hp, hs, typeKeywords_sub line hkw⟩
  · split at h
    · exact hcur r h
    · cases cur with
      | none => exact absurd h (by simp)
      | some r0 =>
        have hw := hcur r0 rfl
        dsimp only at h
        split at h
        · have hr := Option.some.inj h
          subst hr
          exact hw
        · have hr := Option.some.inj h
          subst hr
          exact hw

theorem scanGoF_wf : ∀ (n : Nat) (lines : List String) (cur : Option Exhibitor)
    (acc : List Exhibitor),
    (∀ r ∈ acc, wfRecord r) → (∀ r, cur = some r → wfRecord r) →
    ∀ y ∈ scanGoF n lines cur acc, wfRecord y := by
  have hbase : ∀ (cur : Option Exhibitor) (acc : List Exhibitor),
      (∀ r ∈ acc, wfRecord r) → (∀ r, cur = some r → wfRecord r) →
      ∀ y ∈ acc ++ cur.toList, wfRecord y := by
    intro cur acc hacc hcur y hy
    rcases List.mem_append.mp hy with h1 | h2
    · exact hacc y h1
    · cases cur with
      | none => simp at h2
      | some r0 =>
        have : y = r0 := by simpa using h2
        subst this
        exact hcur y rfl
  intro n
  induction n with
  | zero =>
    intro lines cur acc hacc hcur y hy
    cases lines with
    | nil =>
      simp only [scanGoF] at hy
      exact hbase cur acc hacc hcur y hy
    | cons l rest =>
      simp only [scanGoF] at hy
      exact hbase cur acc hacc hcur y hy
  | succ n ih =>
    intro lines cur acc hacc hcur y hy
    cases lines with
    | nil =>
      simp only [scanGoF] at hy
      exact hbase cur acc hacc hcur y hy
    | cons line rest =>
      have hacc1 : ∀ r ∈ acc ++ cur.toList, wfRecord r := by
        intro r hr
        rcases List.mem_append.mp hr with h1 | h2
        · exact hacc r h1
        · cases cur with
          | none => simp at h2
          | some r0 =>
            have : r = r0 := by simpa using h2
            subst this
            exact hcur r rfl
      cases hml : markerMatch line with
      | none =>
        simp only [scanGoF, hml] at hy
        exact ih rest _ acc hacc (stepLine_wf line cur hcur) y hy
      | some pr =>
        obtain ⟨pav, std⟩ := pr
        have hr0 : wfRecord ⟨"", pav, std, "Espositore", "", []⟩ := by
          obtain ⟨hpq, hsq⟩ := markerMatch_shape line pav std hml
          have hty : ("Espositore" : String) ∈ typeValues := by decide
          exact ⟨hpq, hsq, hty⟩
        cases rest with
        | nil =>
          simp only [scanGoF, hml] at hy
          rcases List.mem_append.mp hy with h1 | h2
          · exact hacc1 y h1
          · have : y = _ := List.mem_singleton.mp h2
            subst this
            exact hr0
        | cons next rest2 =>
          simp only [scanGoF, hml] at hy
          by_cases hk : next ∈ typeKeywords
          · rw [if_pos hk] at hy
            refine ih rest2 _ _ hacc1 ?_ y hy
            intro r hr
            have := Option.some.inj hr
            subst this
            exact ⟨hr0.1, hr0.2.1, typeKeywords_sub next hk⟩
          · by_cases hp : containsPadiglione next = true
            · rw [if_neg hk, if_pos hp] at hy
              refine ih (next :: rest2) _ _ hacc1 ?_ y hy
              intro r hr
              have := Option.some.inj hr
              subst this
              exact hr0
            · rw [if_neg hk, if_neg hp] at hy
              refine ih rest2 _ _ hacc1 ?_ y hy
              intro r hr
              have := Option.some.inj hr
              subst this
              exact hr0

/-- C10: every record returned by the pattern-based record scanner has a
non-empty pavilion matching digits optionally followed by a hyphen and
digits, a non-empty stand consisting of one uppercase letter, whitespace
and digits (both taken from the marker capture groups), and a type equal
to one of the four enumerated values. -/
theorem C10_theorem (text : String) (r : Exhibitor)
    (h : r ∈ parse_raw_text_data text) :
    (r.pavilion ≠ "" ∧ pavWF r.pavilion = true)
    ∧ (r.stand ≠ "" ∧ standWF r.stand = true)
    ∧ r.type ∈ typeValues := by
  refine scanGoF_wf _ _ none [] ?_ ?_ r h
  · intro x hx
    simp at hx
  · intro x hx
    exact absurd hx (by simp)

theorem C10_witness :
    (⟨"", "4", "A 12", "Espositore", "", []⟩ : Exhibitor)
      ∈ parse_raw_text_data "Padiglione 4 - Stand A 12"
    ∧ ((("4" : String) ≠ "" ∧ pavWF "4" = true)
       ∧ (("A 12" : String) ≠ "" ∧ standWF "A 12" = true)
       ∧ ("Espositore" : String) ∈ typeValues) :=
  ⟨by decide, C10_theorem ("Padiglione 4 - Stand A 12")
    ⟨"", "4", "A 12", "Espositore", "", []⟩ (by decide)⟩
